import Mathlib

/-!
Verification of `augmenter.py`, a synonym-based text augmentation utility.

The external dependencies of the script (the NLTK tokenizer, the English
stop-word list and the WordNet lexical database) are modelled as an
abstract environment `Env`.  A synset is represented by the list of its
lemma names, so `Env.synsets w p` is the list of synsets returned by
`wordnet.synsets(w, pos=p)`.  The process-wide random generator consumed
by `random.choice` is modelled as a stream `g : Nat → Nat` of draws; the
k-th call to `random.choice(seq)` returns `seq[g k % len(seq)]`, which is
exactly `seq[randbelow(len(seq))]` with the draw supplied by the oracle.
`ThreadPoolExecutor.map` is modelled by a slot buffer written in an
arbitrary completion order and read back in submission order.
-/

namespace Augmenter

/-- The external resources the script loads at import time:
the word tokenizer, the English stop-word list, and the lexical
database lookup `synsets word pos` (each synset given by the list of
names of its lemmas). -/
structure Env where
  tokenize : String → List String
  stopWords : List String
  synsets : String → Option String → List (List String)

/-- Python `str.isalpha()`: true iff the string is non-empty and all of
its characters are alphabetic (stated over the character list of the
string). -/
def pyIsAlpha (s : String) : Bool :=
  !s.data.isEmpty && s.data.all Char.isAlpha

/-- The `custom_synonyms` dictionary: a mapping from words to lists of
additional synonyms, modelled as an association list. -/
abbrev CustomSynonyms := List (String × List String)

/-- Python truthiness of the optional `custom_synonyms` argument:
`None` and the empty dict are falsy. -/
def customTruthy : Option CustomSynonyms → Bool
  | none => false
  | some c => !c.isEmpty

/-- `custom_synonyms.get(word, [])`. -/
def customGet : Option CustomSynonyms → String → List String
  | none, _ => []
  | some c, word => (c.lookup word).getD []

/-- `get_synonyms(word, pos, custom_synonyms)`: collect every lemma name
of every synset of `word` (restricted to `pos`) into a set, union in
`custom_synonyms.get(word, [])` when the dict is truthy, discard `word`
itself, and return the set as a list.  The Python set is modelled by
deduplication; its contract is membership, not order. -/
def getSynonyms (env : Env) (word : String) (pos : Option String)
    (custom : Option CustomSynonyms) : List String :=
  let fromDb := (env.synsets word pos).flatten
  let withCustom :=
    if customTruthy custom then fromDb ++ customGet custom word else fromDb
  withCustom.dedup.filter (fun x => x ≠ word)

/-- State-passing form of `get_synonyms`, in which the operations the
function performs on the caller-owned dictionary (the truthiness test
and `.get`) thread the dictionary through explicitly, so that the claim
that the dictionary is never mutated is expressible. -/
def dictGet (d : CustomSynonyms) (k : String) (dflt : List String) :
    List String × CustomSynonyms :=
  ((d.lookup k).getD dflt, d)

/-- `get_synonyms` with the `custom_synonyms` dictionary threaded as
state: returns the synonym list together with the dictionary as it is
after the call. -/
def getSynonymsRun (env : Env) (word : String) (pos : Option String) :
    Option CustomSynonyms → List String × Option CustomSynonyms
  | none =>
      (((env.synsets word pos).flatten).dedup.filter (fun x => x ≠ word), none)
  | some c =>
      if c.isEmpty then
        (((env.synsets word pos).flatten).dedup.filter (fun x => x ≠ word), some c)
      else
        let got := dictGet c word []
        ((((env.synsets word pos).flatten ++ got.1).dedup.filter (fun x => x ≠ word)),
          some got.2)

/-- `word.isalpha() and word not in stop_words`: the test deciding
whether a token is substitutable. -/
def substitutable (env : Env) (w : String) : Bool :=
  pyIsAlpha w && !env.stopWords.contains w

/-- `random.choice(l)` with the draw `r` supplied by the random oracle:
the element of `l` at index `r % l.length` (uniform when the draw is). -/
def randomChoice (r : Nat) (l : List String) : String :=
  l.getD (r % l.length) ""

/-- The loop body of `lexical_substitution`: walk the token list in
order, replacing each substitutable token whose synonym list is
non-empty by a random choice from that list and passing every other
token through; `k` counts the `random.choice` calls made so far, so the
k-th call consumes draw `g k`. -/
def lexSubLoop (env : Env) (g : Nat → Nat) (pos : Option String)
    (custom : Option CustomSynonyms) : List String → Nat → List String
  | [], _ => []
  | w :: ws, k =>
      if substitutable env w then
        let syns := getSynonyms env w pos custom
        if !syns.isEmpty then
          randomChoice (g k) syns :: lexSubLoop env g pos custom ws (k + 1)
        else
          w :: lexSubLoop env g pos custom ws k
      else
        w :: lexSubLoop env g pos custom ws k

/-- The list `augmented_text` built by `lexical_substitution` just
before the final join. -/
def lexSubEmit (env : Env) (g : Nat → Nat) (pos : Option String)
    (custom : Option CustomSynonyms) (text : String) : List String :=
  lexSubLoop env g pos custom (env.tokenize text) 0

/-- `lexical_substitution(text, pos, custom_synonyms)`. -/
def lexicalSubstitution (env : Env) (g : Nat → Nat) (pos : Option String)
    (custom : Option CustomSynonyms) (text : String) : String :=
  String.intercalate " " (lexSubEmit env g pos custom text)

/-- The result buffer of a thread pool: tasks finish in the order given
by `seq` (indices into the submitted task list, possibly repeated), and
each completion writes the value of its task into its own slot. -/
def writeSeq (f : Nat → String) : List Nat → (Nat → Option String) →
    Nat → Option String
  | [], buf => buf
  | j :: rest, buf => writeSeq f rest (Function.update buf j (some (f j)))

/-- Read the first `n` slots of the buffer back in submission order. -/
def collectSlots (n : Nat) (buf : Nat → Option String) : List String :=
  (List.range n).map (fun i => (buf i).getD "")

/-- `list(executor.map(f, tasks))` for `n` tasks: run all tasks in the
arbitrary completion order `seq`, then collect the results in
submission order. -/
def execMap (f : Nat → String) (n : Nat) (seq : List Nat) : List String :=
  collectSlots n (writeSeq f seq (fun _ => none))

/-- `augment_text_parallel(text)`: lower-case, tokenize, filter to
alphabetic non-stop-word tokens, map `lexical_substitution` (with
default `pos` and `custom_synonyms`) over the filtered tokens on a
thread pool, and join with spaces.  `G i` is the stream of random draws
consumed by the task for token `i`; `seq` is the completion order. -/
def augmentTextParallel (env : Env) (G : Nat → Nat → Nat) (seq : List Nat)
    (text : String) : String :=
  let filtered := (env.tokenize text.toLower).filter (substitutable env)
  String.intercalate " "
    (execMap
      (fun i => lexicalSubstitution env (G i) none none (filtered.getD i ""))
      filtered.length seq)

/-- `augment_chunk_parallel(chunk)`: map `augment_text_parallel` over
the chunk on a thread pool.  `GG i` and `S i` are the random streams and
the inner completion order used by the task for chunk element `i`;
`seq` is the completion order of the outer pool. -/
def augmentChunkParallel (env : Env) (GG : Nat → Nat → Nat → Nat)
    (S : Nat → List Nat) (seq : List Nat) (chunk : List String) : List String :=
  execMap
    (fun i => augmentTextParallel env (GG i) (S i) (chunk.getD i ""))
    chunk.length seq

/-! ## Theorems -/

lemma mem_getSynonyms (env : Env) (word : String) (pos : Option String)
    (custom : Option CustomSynonyms) (x : String) :
    x ∈ getSynonyms env word pos custom ↔
      ((∃ s ∈ env.synsets word pos, x ∈ s) ∨
        ∃ c, custom = some c ∧ x ∈ (c.lookup word).getD []) ∧ x ≠ word := by
  unfold getSynonyms
  cases custom with
  | none =>
      simp [customTruthy, List.mem_filter, List.mem_dedup, List.mem_flatten,
        and_comm]
  | some c =>
      by_cases hc : c.isEmpty
      · have hc' : c = [] := by simpa using hc
        subst hc'
        simp [customTruthy, customGet, List.mem_filter, List.mem_dedup,
          List.mem_flatten, List.lookup, and_comm]
      · simp [customTruthy, hc, customGet, List.mem_filter, List.mem_dedup,
          List.mem_append, List.mem_flatten, and_comm]

/-- C2: for every word, optional pos tag and optional custom-synonym
mapping, `get_synonyms` returns, as a duplicate-free list whose contract
is membership only, exactly the lemma names of all senses of the word
restricted to the pos, unioned with `custom_synonyms.get(word, [])` when
a mapping is given, with the word itself removed. -/
theorem getSynonyms_spec (env : Env) (word : String) (pos : Option String)
    (custom : Option CustomSynonyms) :
    (getSynonyms env word pos custom).Nodup ∧
      ∀ x, x ∈ getSynonyms env word pos custom ↔
        ((∃ s ∈ env.synsets word pos, x ∈ s) ∨
          ∃ c, custom = some c ∧ x ∈ (c.lookup word).getD []) ∧ x ≠ word := by
  refine ⟨?_, fun x => mem_getSynonyms env word pos custom x⟩
  unfold getSynonyms
  exact (List.nodup_dedup _).filter _

/-- C3: the word itself is never an element of the list returned by
`get_synonyms`, whatever the pos tag and the custom-synonym mapping
(even one whose entry for the word contains the word). -/
theorem getSynonyms_not_self (env : Env) (word : String) (pos : Option String)
    (custom : Option CustomSynonyms) :
    word ∉ getSynonyms env word pos custom := by
  unfold getSynonyms
  simp [List.mem_filter]

/-- C4: a word with no lexical-database entry and no entry in the
(absent or given) custom-synonym mapping yields the empty list, with
`pos` at its default value. -/
theorem getSynonyms_unknown (env : Env) (word : String)
    (custom : Option CustomSynonyms)
    (hdb : env.synsets word none = [])
    (hcu : ∀ c, custom = some c → c.lookup word = none) :
    getSynonyms env word none custom = [] := by
  unfold getSynonyms
  rw [hdb]
  cases custom with
  | none => simp [customTruthy]
  | some c =>
      by_cases hc : c.isEmpty
      · simp [customTruthy, hc]
      · simp [customTruthy, hc, customGet, hcu c rfl]

/-- Environment used to instantiate the hypothesis-bearing theorems:
the tokenizer splits nothing, the stop-word list is empty and the
lexical database is empty. -/
def envEmpty : Env :=
  { tokenize := fun _ => []
    stopWords := []
    synsets := fun _ _ => [] }

/-- Witness for C4 at a concrete input: an unknown word with a custom
mapping that has no entry for it. -/
theorem getSynonyms_unknown_witness :
    getSynonyms envEmpty "zzz" none (some [("other", ["x"])]) = [] :=
  getSynonyms_unknown envEmpty "zzz" (some [("other", ["x"])])
    (by decide) (by decide)

/-- C9: `get_synonyms` never mutates the caller-supplied
`custom_synonyms` mapping: in the state-passing form, the dictionary
after the call is exactly the dictionary before it, and the returned
list agrees with `get_synonyms`. -/
theorem getSynonymsRun_frame (env : Env) (word : String) (pos : Option String)
    (custom : Option CustomSynonyms) :
    (getSynonymsRun env word pos custom).2 = custom ∧
      (getSynonymsRun env word pos custom).1 = getSynonyms env word pos custom := by
  cases custom with
  | none => exact ⟨rfl, rfl⟩
  | some c =>
      by_cases hc : c.isEmpty
      · constructor
        · simp [getSynonymsRun, hc]
        · have hc' : c = [] := by simpa using hc
          subst hc'
          simp [getSynonymsRun, getSynonyms, customTruthy]
      · constructor
        · simp [getSynonymsRun, hc, dictGet]
        · simp [getSynonymsRun, hc, dictGet, getSynonyms, customTruthy, customGet]

lemma randomChoice_mem (r : Nat) (l : List String) (h : l ≠ []) :
    randomChoice r l ∈ l := by
  have hlen : 0 < l.length := List.length_pos.mpr h
  have hm : r % l.length < l.length := Nat.mod_lt _ hlen
  unfold randomChoice
  rw [List.getD_eq_getElem?_getD, List.getElem?_eq_getElem hm]
  exact List.getElem_mem hm

lemma lexSubLoop_forall₂ (env : Env) (g : Nat → Nat) (pos : Option String)
    (custom : Option CustomSynonyms) :
    ∀ (ws : List String) (k : Nat),
      List.Forall₂
        (fun w o =>
          if substitutable env w = true then
            if getSynonyms env w pos custom = [] then o = w
            else o ∈ getSynonyms env w pos custom
          else o = w)
        ws (lexSubLoop env g pos custom ws k)
  | [], _ => by
      simp [lexSubLoop]
  | w :: ws, k => by
      by_cases hs : substitutable env w
      · by_cases he : getSynonyms env w pos custom = []
        · have : lexSubLoop env g pos custom (w :: ws) k
              = w :: lexSubLoop env g pos custom ws k := by
            simp [lexSubLoop, hs, he]
          rw [this]
          exact List.Forall₂.cons (by simp [hs, he])
            (lexSubLoop_forall₂ env g pos custom ws k)
        · have : lexSubLoop env g pos custom (w :: ws) k
              = randomChoice (g k) (getSynonyms env w pos custom)
                  :: lexSubLoop env g pos custom ws (k + 1) := by
            simp [lexSubLoop, hs, List.isEmpty_iff, he]
          rw [this]
          exact List.Forall₂.cons
            (by simp [hs, he, randomChoice_mem (g k) _ he])
            (lexSubLoop_forall₂ env g pos custom ws (k + 1))
      · have : lexSubLoop env g pos custom (w :: ws) k
            = w :: lexSubLoop env g pos custom ws k := by
          simp [lexSubLoop, hs]
        rw [this]
        exact List.Forall₂.cons (by simp [hs])
          (lexSubLoop_forall₂ env g pos custom ws k)

/-- C1: `lexical_substitution` processes the tokens of the text in
original order, emitting for each alphabetic non-stop-word token an
element of its synonym list selected by the random draw when that list
is non-empty (the original token otherwise), emitting every other token
unchanged, and returns the emitted tokens joined by single spaces. -/
theorem lexicalSubstitution_spec (env : Env) (g : Nat → Nat)
    (pos : Option String) (custom : Option CustomSynonyms) (text : String) :
    lexicalSubstitution env g pos custom text
      = String.intercalate " " (lexSubEmit env g pos custom text) ∧
    List.Forall₂
      (fun w o =>
        if substitutable env w = true then
          if getSynonyms env w pos custom = [] then o = w
          else o ∈ getSynonyms env w pos custom
        else o = w)
      (env.tokenize text) (lexSubEmit env g pos custom text) :=
  ⟨rfl, lexSubLoop_forall₂ env g pos custom (env.tokenize text) 0⟩

/-- C10: `lexical_substitution` emits exactly one output token per
input token: the emitted list it joins has the same length as the
tokenization of the input text. -/
theorem lexSubEmit_length (env : Env) (g : Nat → Nat) (pos : Option String)
    (custom : Option CustomSynonyms) (text : String) :
    (lexSubEmit env g pos custom text).length = (env.tokenize text).length ∧
    lexicalSubstitution env g pos custom text
      = String.intercalate " " (lexSubEmit env g pos custom text) :=
  ⟨(lexSubLoop_forall₂ env g pos custom (env.tokenize text) 0).length_eq.symm,
    rfl⟩

lemma lexSubLoop_passthrough (env : Env) (g : Nat → Nat) (pos : Option String)
    (custom : Option CustomSynonyms) :
    ∀ (ws : List String) (k : Nat),
      (∀ w ∈ ws, substitutable env w = false) →
      lexSubLoop env g pos custom ws k = ws
  | [], _, _ => rfl
  | w :: ws, k, h => by
      have hw : substitutable env w = false := h w (by simp)
      have hws : ∀ w ∈ ws, substitutable env w = false :=
        fun w hmem => h w (List.mem_cons_of_mem _ hmem)
      simp [lexSubLoop, hw, lexSubLoop_passthrough env g pos custom ws k hws]

/-- C7: on a text whose tokens are all stop words or non-alphabetic,
`lexical_substitution` (with default `pos` and `custom_synonyms`)
returns exactly the token sequence rejoined with single spaces. -/
theorem lexicalSubstitution_passthrough (env : Env) (g : Nat → Nat)
    (text : String)
    (h : ∀ w ∈ env.tokenize text, substitutable env w = false) :
    lexicalSubstitution env g none none text
      = String.intercalate " " (env.tokenize text) := by
  unfold lexicalSubstitution lexSubEmit
  rw [lexSubLoop_passthrough env g none none (env.tokenize text) 0 h]

/-- Environment for the C7 witness: every text tokenizes to a stop word
followed by a punctuation token. -/
def envStop : Env :=
  { tokenize := fun _ => ["the", "."]
    stopWords := ["the"]
    synsets := fun _ _ => [] }

/-- Witness for C7 at a concrete input: a text of one stop word and one
punctuation token comes back unchanged. -/
theorem lexicalSubstitution_passthrough_witness :
    lexicalSubstitution envStop (fun _ => 0) none none "the ." = "the ." :=
  (lexicalSubstitution_passthrough envStop (fun _ => 0) "the ."
    (by decide)).trans (by decide)

/-- C8: on any input whose tokenization is empty (in particular the
empty text, for which both the direct and the lower-cased tokenization
are empty), `lexical_substitution` and `augment_text_parallel` both
return the empty string; both functions are total, so no exception is
possible. -/
theorem emptyTokens_empty_output (env : Env) (g : Nat → Nat)
    (G : Nat → Nat → Nat) (seq : List Nat) (pos : Option String)
    (custom : Option CustomSynonyms) (text : String)
    (h1 : env.tokenize text = [])
    (h2 : env.tokenize text.toLower = []) :
    lexicalSubstitution env g pos custom text = "" ∧
      augmentTextParallel env G seq text = "" := by
  constructor
  · unfold lexicalSubstitution lexSubEmit
    rw [h1]
    rfl
  · unfold augmentTextParallel
    rw [h2]
    rfl

/-- Witness for C8 at a concrete input: the empty text under a
tokenizer producing no tokens. -/
theorem emptyTokens_empty_output_witness :
    lexicalSubstitution envEmpty (fun _ => 0) none none "" = "" ∧
      augmentTextParallel envEmpty (fun _ _ => 0) [] "" = "" :=
  emptyTokens_empty_output envEmpty (fun _ => 0) (fun _ _ => 0) [] none none ""
    rfl rfl

lemma writeSeq_apply (f : Nat → String) :
    ∀ (seq : List Nat) (buf : Nat → Option String) (i : Nat),
      writeSeq f seq buf i = if i ∈ seq then some (f i) else buf i
  | [], buf, i => by simp [writeSeq]
  | j :: rest, buf, i => by
      simp only [writeSeq]
      rw [writeSeq_apply f rest _ i]
      by_cases hi : i ∈ rest
      · simp [hi]
      · by_cases hij : i = j
        · subst hij
          simp [hi, Function.update_apply]
        · simp [hi, hij, Function.update_apply]

lemma execMap_eq_map (f : Nat → String) (n : Nat) (seq : List Nat)
    (h : ∀ i, i < n → i ∈ seq) :
    execMap f n seq = (List.range n).map f := by
  unfold execMap collectSlots
  refine List.map_congr_left ?_
  intro i hi
  rw [writeSeq_apply]
  simp [h i (List.mem_range.mp hi)]

lemma getD_map_range (f : Nat → String) (n i : Nat) (h : i < n) :
    ((List.range n).map f).getD i "" = f i := by
  have hlen : i < ((List.range n).map f).length := by simpa
  rw [List.getD_eq_getElem?_getD, List.getElem?_eq_getElem hlen]
  simp

lemma rangeMap_getD_eq_mapIdx (g : Nat → String → String) :
    ∀ l : List String,
      (List.range l.length).map (fun i => g i (l.getD i ""))
        = l.mapIdx g
  | [] => rfl
  | a :: l => by
      rw [List.length_cons, List.range_succ_eq_map, List.map_cons,
        List.map_map, List.mapIdx_cons]
      refine congrArg (g 0 a :: ·) ?_
      exact rangeMap_getD_eq_mapIdx (fun i w => g (i + 1) w) l

/-- C6: `augment_text_parallel` returns the space-join, in input-token
order, of `lexical_substitution` applied with default `pos` and
`custom_synonyms` to each alphabetic non-stop-word token of the
lower-cased text (all other tokens being dropped by the filter),
provided every submitted task completes. -/
theorem augmentTextParallel_spec (env : Env) (G : Nat → Nat → Nat)
    (seq : List Nat) (text : String)
    (h : ∀ i,
      i < ((env.tokenize text.toLower).filter (substitutable env)).length →
      i ∈ seq) :
    augmentTextParallel env G seq text
      = String.intercalate " "
          (((env.tokenize text.toLower).filter (substitutable env)).mapIdx
            (fun i w => lexicalSubstitution env (G i) none none w)) := by
  unfold augmentTextParallel
  dsimp only
  rw [execMap_eq_map _ _ _ h]
  exact congrArg (String.intercalate " ")
    (rangeMap_getD_eq_mapIdx
      (fun i w => lexicalSubstitution env (G i) none none w)
      ((env.tokenize text.toLower).filter (substitutable env)))

/-- Environment for the parallel-wrapper witnesses: every text
tokenizes to the single word `cat`, whose only synonym is `feline`. -/
def envCat : Env :=
  { tokenize := fun _ => ["cat"]
    stopWords := ["the"]
    synsets := fun w _ => if w = "cat" then [["feline"]] else [] }

/-- Witness for C6 at a concrete input: one substitutable token whose
synonym list is the singleton `feline`. -/
theorem augmentTextParallel_spec_witness :
    augmentTextParallel envCat (fun _ _ => 0) [0] "cat" = "feline" :=
  (augmentTextParallel_spec envCat (fun _ _ => 0) [0] "cat"
    (by decide)).trans (by decide)

/-- C5: `augment_chunk_parallel` returns a list of the same length as
its input in which element `i` is `augment_text_parallel` of input
element `i` — the parallel map equals the order-preserving sequential
map for every completion order that finishes all submitted tasks. -/
theorem augmentChunkParallel_spec (env : Env) (GG : Nat → Nat → Nat → Nat)
    (S : Nat → List Nat) (seq : List Nat) (chunk : List String)
    (h : ∀ i, i < chunk.length → i ∈ seq) :
    (augmentChunkParallel env GG S seq chunk).length = chunk.length ∧
      ∀ i, i < chunk.length →
        (augmentChunkParallel env GG S seq chunk).getD i ""
          = augmentTextParallel env (GG i) (S i) (chunk.getD i "") := by
  unfold augmentChunkParallel
  rw [execMap_eq_map _ _ _ h]
  constructor
  · simp
  · intro i hi
    exact getD_map_range _ _ _ hi

/-- Witness for C5 at a concrete input: a one-element chunk, completed
by the only thread, keeps its length and its element is the
augmentation of the input element. -/
theorem augmentChunkParallel_spec_witness :
    (augmentChunkParallel envCat (fun _ _ _ => 0) (fun _ => [0]) [0]
        ["cat"]).length = 1 ∧
      (augmentChunkParallel envCat (fun _ _ _ => 0) (fun _ => [0]) [0]
          ["cat"]).getD 0 ""
        = augmentTextParallel envCat (fun _ _ => 0) [0] "cat" :=
  ⟨(augmentChunkParallel_spec envCat (fun _ _ _ => 0) (fun _ => [0]) [0]
      ["cat"] (by decide)).1,
    (augmentChunkParallel_spec envCat (fun _ _ _ => 0) (fun _ => [0]) [0]
      ["cat"] (by decide)).2 0 (by decide)⟩

end Augmenter
